import Mathlib

/-!
Verification of the Chaum-Pedersen zero-knowledge-proof implementation
(`src/lib.rs`).  The `BigUint` values of the Rust code are modelled as `Nat`;
`BigUint::modpow` is modelled by a binary modular exponentiation `modpow`
together with the lemma `modpow_eq` identifying it with `n ^ e % p`.
-/

/-- The `ZKP` struct of the source: public group parameters
`p` (modulus), `q` (subgroup order) and the two generators `alpha`, `beta`.
In the source this is a plain struct with public fields and no constructor
logic of any kind. -/
structure ZKP where
  p : Nat
  q : Nat
  alpha : Nat
  beta : Nat

/-- Binary (square-and-multiply) modular exponentiation, the model of
`BigUint::modpow`.  The Rust library function requires a non-zero modulus
(it panics otherwise); every claim below assumes at least `0 < p`. -/
def modpow (n e p : Nat) : Nat :=
  if h : e = 0 then 1 % p
  else if e % 2 = 1 then modpow (n * n % p) (e / 2) p * (n % p) % p
  else modpow (n * n % p) (e / 2) p
termination_by e
decreasing_by
  all_goals exact Nat.div_lt_self (Nat.pos_of_ne_zero h) Nat.one_lt_two

/-- The associated function `ZKP::exponetiate` (name as in the source):
`n.modpow(exponent, p)`. -/
def ZKP.exponetiate (n exponent p : Nat) : Nat :=
  modpow n exponent p

/-- The method `ZKP::solve`, computing the response `s = k - c·x mod q`:
if `k ≥ c·x` it returns `(k - c·x).modpow(1, q)`, otherwise
`q - (c·x - k).modpow(1, q)`. -/
def ZKP.solve (zkp : ZKP) (k c x : Nat) : Nat :=
  if c * x ≤ k then modpow (k - c * x) 1 zkp.q
  else zkp.q - modpow (c * x - k) 1 zkp.q

/-- The method `ZKP::verify`: checks `r1 == (alpha^s · y1^c).modpow(1, p)`
and `r2 == (beta^s · y2^c).modpow(1, p)`, each factor itself computed with
`modpow`. -/
def ZKP.verify (zkp : ZKP) (r1 r2 y1 y2 s c : Nat) : Bool :=
  (r1 == modpow (modpow zkp.alpha s zkp.p * modpow y1 c zkp.p) 1 zkp.p)
    && (r2 == modpow (modpow zkp.beta s zkp.p * modpow y2 c zkp.p) 1 zkp.p)

/-- Modelled from the spec: the `GroupParameters` invariants that section 7 of
the specification says construction must enforce — prime modulus, `q`
dividing `p - 1`, and both generators inside `[1, p)`.  The source has no
code enforcing (or even mentioning) these, so the predicate is taken from
the specification text for comparison with the actual constructor. -/
def specValidParams (p q alpha beta : Nat) : Prop :=
  p.Prime ∧ q ∣ p - 1 ∧ (1 ≤ alpha ∧ alpha < p) ∧ (1 ≤ beta ∧ beta < p)

theorem modpow_eq (n e p : Nat) : modpow n e p = n ^ e % p := by
  induction e using Nat.strong_induction_on generalizing n with
  | _ e ih =>
    unfold modpow
    split
    · rename_i h
      subst h
      rw [pow_zero]
    · rename_i h
      have h2 : e / 2 < e := Nat.div_lt_self (Nat.pos_of_ne_zero h) Nat.one_lt_two
      have hsq : (n * n % p) ^ (e / 2) % p = n ^ (2 * (e / 2)) % p := by
        rw [← Nat.pow_mod, ← pow_two, ← pow_mul]
      split
      · rename_i ho
        rw [ih (e / 2) h2, hsq, ← Nat.mul_mod, ← pow_succ]
        have : 2 * (e / 2) + 1 = e := by omega
        rw [this]
      · rename_i ho
        rw [ih (e / 2) h2, hsq]
        have : 2 * (e / 2) = e := by omega
        rw [this]

theorem modpow_one_right (n p : Nat) : modpow n 1 p = n % p := by
  rw [modpow_eq, pow_one]

theorem solve_add_mod (zkp : ZKP) (k c x : Nat) (hq : 0 < zkp.q) :
    (zkp.solve k c x + c * x) % zkp.q = k % zkp.q := by
  unfold ZKP.solve
  split
  · rename_i hle
    rw [modpow_one_right]
    have h1 : ((k - c * x) % zkp.q + c * x) % zkp.q
        = ((k - c * x) + c * x) % zkp.q :=
      Nat.ModEq.add_right (c * x) (Nat.mod_mod_of_dvd _ dvd_rfl)
    rw [h1, Nat.sub_add_cancel hle]
  · rename_i hlt
    rw [modpow_one_right]
    have hklt : k < c * x := by omega
    have hr : (c * x - k) % zkp.q < zkp.q := Nat.mod_lt _ hq
    have hcx : c * x = k + (c * x - k) := by omega
    have h2 : (zkp.q - (c * x - k) % zkp.q + (k + (c * x - k))) % zkp.q
        = (zkp.q - (c * x - k) % zkp.q + (k + (c * x - k) % zkp.q)) % zkp.q :=
      Nat.ModEq.add_left _ (Nat.ModEq.add_left _ (Nat.mod_modEq _ _).symm)
    have h3 : zkp.q - (c * x - k) % zkp.q + (k + (c * x - k) % zkp.q)
        = zkp.q + k := by omega
    calc (zkp.q - (c * x - k) % zkp.q + c * x) % zkp.q
        = (zkp.q - (c * x - k) % zkp.q + (k + (c * x - k))) % zkp.q := by
          rw [← hcx]
      _ = (zkp.q - (c * x - k) % zkp.q + (k + (c * x - k) % zkp.q)) % zkp.q := h2
      _ = (zkp.q + k) % zkp.q := by rw [h3]
      _ = k % zkp.q := Nat.add_mod_left _ _

theorem pow_mod_cycle (a q p m : Nat) (hp : 1 < p) (h : a ^ q % p = 1) :
    a ^ m % p = a ^ (m % q) % p := by
  calc a ^ m % p
      = a ^ (q * (m / q) + m % q) % p := by rw [Nat.div_add_mod]
    _ = ((a ^ q) ^ (m / q) * a ^ (m % q)) % p := by rw [pow_add, pow_mul]
    _ = ((a ^ q) ^ (m / q) % p * (a ^ (m % q) % p)) % p := by rw [Nat.mul_mod]
    _ = ((a ^ q % p) ^ (m / q) % p * (a ^ (m % q) % p)) % p := by
        rw [Nat.pow_mod (a ^ q) (m / q) p]
    _ = (1 % p * (a ^ (m % q) % p)) % p := by rw [h, one_pow]
    _ = a ^ (m % q) % p % p := by rw [Nat.mod_eq_of_lt hp, one_mul]
    _ = a ^ (m % q) % p := Nat.mod_mod_of_dvd _ dvd_rfl

theorem verify_left_arg (p a x c s : Nat) :
    modpow (modpow a s p * modpow (modpow a x p) c p) 1 p
      = a ^ (s + x * c) % p := by
  rw [modpow_one_right, modpow_eq, modpow_eq, modpow_eq,
    ← Nat.pow_mod, ← pow_mul, ← Nat.mul_mod, ← pow_add]

/-- The toy parameter set `p = 23, q = 11, alpha = 4, beta = 9` used by the
source test `test_example`. -/
def zkpToy : ZKP := ⟨23, 11, 4, 9⟩

/-- C9: in the toy group `p=23, q=11, alpha=4, beta=9` with
`x=6, k=7, c=4`, exponentiation yields `y1=2, y2=3, r1=8, r2=4`, the
response is `s=5`, verification of the honest proof succeeds, and
verification with `s` recomputed from the fake secret `x=7` fails. -/
theorem toy_example_scenario :
    ZKP.exponetiate 4 6 23 = 2 ∧ ZKP.exponetiate 9 6 23 = 3 ∧
    ZKP.exponetiate 4 7 23 = 8 ∧ ZKP.exponetiate 9 7 23 = 4 ∧
    zkpToy.solve 7 4 6 = 5 ∧
    zkpToy.verify 8 4 2 3 5 4 = true ∧
    zkpToy.verify 8 4 2 3 (zkpToy.solve 7 4 7) 4 = false := by
  simp only [ZKP.exponetiate, ZKP.solve, ZKP.verify, zkpToy, modpow_eq]
  decide

theorem verify_eq_iff (zkp : ZKP) (r1 r2 y1 y2 s c : Nat) :
    zkp.verify r1 r2 y1 y2 s c = true ↔
      (r1 = zkp.alpha ^ s * y1 ^ c % zkp.p ∧
       r2 = zkp.beta ^ s * y2 ^ c % zkp.p) := by
  unfold ZKP.verify
  rw [Bool.and_eq_true, beq_iff_eq, beq_iff_eq, modpow_one_right,
    modpow_one_right, modpow_eq, modpow_eq, modpow_eq, modpow_eq,
    ← Nat.mul_mod, ← Nat.mul_mod]

/-- C5: for every input and every parameter set with `p > 1`, `verify`
returns true iff `r1 = alpha^s · y1^c mod p` and `r2 = beta^s · y2^c mod p`,
each product reduced mod `p` before the exact integer comparison. -/
theorem verify_iff_conditions (zkp : ZKP) (r1 r2 y1 y2 s c : Nat)
    (hp : 1 < zkp.p) :
    zkp.verify r1 r2 y1 y2 s c = true ↔
      (r1 = zkp.alpha ^ s * y1 ^ c % zkp.p ∧
       r2 = zkp.beta ^ s * y2 ^ c % zkp.p) :=
  verify_eq_iff zkp r1 r2 y1 y2 s c

theorem verify_iff_conditions_witness : zkpToy.verify 8 4 2 3 5 4 = true :=
  (verify_iff_conditions zkpToy 8 4 2 3 5 4 (by decide)).mpr
    ⟨by decide, by decide⟩

/-- C6 counterexample: with modulus `p = 1` (permitted by the claim, which
quantifies over every modulus), `exponetiate(5, 0, 1)` is `0`, not `1`. -/
theorem exponetiate_zero_exponent_cex :
    ZKP.exponetiate 5 0 1 = 0 ∧ ZKP.exponetiate 5 0 1 ≠ 1 := by
  constructor <;> · simp only [ZKP.exponetiate, modpow_eq]; decide

/-- C6 amended: for every base `n` and every modulus `p > 1`,
`exponetiate(n, 0, p)` returns `1`. -/
theorem exponetiate_zero_exponent (n p : Nat) (hp : 1 < p) :
    ZKP.exponetiate n 0 p = 1 := by
  rw [ZKP.exponetiate, modpow_eq, pow_zero, Nat.mod_eq_of_lt hp]

theorem exponetiate_zero_exponent_witness : ZKP.exponetiate 5 0 23 = 1 :=
  exponetiate_zero_exponent 5 23 (by decide)

/-- C7: for a prime modulus `p`, `exponetiate(n, e, p)` equals
`n^e mod p` and in particular is strictly less than `p`. -/
theorem exponetiate_lt_modulus (n e p : Nat) (hp : p.Prime) :
    ZKP.exponetiate n e p = n ^ e % p ∧ ZKP.exponetiate n e p < p := by
  refine ⟨modpow_eq n e p, ?_⟩
  rw [ZKP.exponetiate, modpow_eq]
  exact Nat.mod_lt _ hp.pos

theorem exponetiate_lt_modulus_witness :
    ZKP.exponetiate 2 10 5 = 2 ^ 10 % 5 ∧ ZKP.exponetiate 2 10 5 < 5 :=
  exponetiate_lt_modulus 2 10 5 (by norm_num)

/-- C8: `verify` is modelled as a total boolean function (the only panic
source in the Rust code, `modpow` with zero modulus, is excluded by
`p > 1`); a proof failing either recomputation check is reported as the
normal boolean `false`, never as an error condition. -/
theorem verify_failed_proof_is_false (zkp : ZKP) (r1 r2 y1 y2 s c : Nat)
    (hp : 1 < zkp.p)
    (hfail : ¬ (r1 = zkp.alpha ^ s * y1 ^ c % zkp.p ∧
                r2 = zkp.beta ^ s * y2 ^ c % zkp.p)) :
    zkp.verify r1 r2 y1 y2 s c = false := by
  cases hb : zkp.verify r1 r2 y1 y2 s c
  · rfl
  · exact absurd ((verify_eq_iff zkp r1 r2 y1 y2 s c).mp hb) hfail

theorem verify_failed_proof_is_false_witness :
    zkpToy.verify 0 0 0 0 0 0 = false :=
  verify_failed_proof_is_false zkpToy 0 0 0 0 0 0 (by decide) (by decide)

/-- C1: evaluation of the code at the failing input — in the toy group
(`q = 11`) with `k = 1, c = 4, x = 3` (all inside `[0, q)`) we have
`c·x - k = 11 ≡ 0 (mod q)`, and the else branch of `solve` returns
`q - ((c·x - k) mod q) = 11 - 0 = 11 = q`, outside `[0, q)`: the code
omits the final reduction the specification demands for the
`(c·x - k) mod q == 0` edge case. -/
theorem solve_edge_case_returns_modulus : zkpToy.solve 1 4 3 = 11 := by
  simp only [ZKP.solve, zkpToy, modpow_eq]
  decide

/-- C4 counterexample: the struct value `ZKP.mk 4 5 2 3` — non-prime
modulus `4` — is constructed and silently accepted, with the invalid
fields stored verbatim; the source has no constructor validation and no
InvalidParameters error at all. -/
theorem zkp_mk_accepts_invalid :
    (ZKP.mk 4 5 2 3).p = 4 ∧ (ZKP.mk 4 5 2 3).q = 5 ∧
    (ZKP.mk 4 5 2 3).alpha = 2 ∧ (ZKP.mk 4 5 2 3).beta = 3 ∧
    ¬ specValidParams (ZKP.mk 4 5 2 3).p (ZKP.mk 4 5 2 3).q
        (ZKP.mk 4 5 2 3).alpha (ZKP.mk 4 5 2 3).beta :=
  ⟨rfl, rfl, rfl, rfl, fun h => absurd h.1 (by norm_num)⟩

/-- C4 amended: construction of the ZKP struct performs no validation of
the group parameters: even when they violate every spec invariant, the
value is created with the given fields unchanged and no error occurs. -/
theorem zkp_mk_no_validation (p q alpha beta : Nat)
    (h : ¬ specValidParams p q alpha beta) :
    (ZKP.mk p q alpha beta).p = p ∧ (ZKP.mk p q alpha beta).q = q ∧
    (ZKP.mk p q alpha beta).alpha = alpha ∧
    (ZKP.mk p q alpha beta).beta = beta :=
  ⟨rfl, rfl, rfl, rfl⟩

theorem zkp_mk_no_validation_witness :
    ¬ specValidParams 4 5 2 3 ∧
    ((ZKP.mk 4 5 2 3).p = 4 ∧ (ZKP.mk 4 5 2 3).q = 5 ∧
     (ZKP.mk 4 5 2 3).alpha = 2 ∧ (ZKP.mk 4 5 2 3).beta = 3) := by
  have h : ¬ specValidParams 4 5 2 3 := fun hv => absurd hv.1 (by norm_num)
  exact ⟨h, zkp_mk_no_validation 4 5 2 3 h⟩

/-- C10: for `q > 0` the response is at most `q`, is congruent to
`k - c·x` modulo `q`, equals `q` exactly when `k < c·x` and `q` divides
`c·x - k`, and lies in `[0, q)` in every other case. -/
theorem solve_range_characterization (zkp : ZKP) (k c x : Nat)
    (hq : 0 < zkp.q) :
    zkp.solve k c x ≤ zkp.q ∧
    ((zkp.solve k c x : ℤ) ≡ (k : ℤ) - (c : ℤ) * (x : ℤ) [ZMOD (zkp.q : ℤ)]) ∧
    (zkp.solve k c x = zkp.q ↔ (k < c * x ∧ zkp.q ∣ (c * x - k))) ∧
    (¬ (k < c * x ∧ zkp.q ∣ (c * x - k)) → zkp.solve k c x < zkp.q) := by
  have hadd := solve_add_mod zkp k c x hq
  have hcast := congrArg (fun t : Nat => (t : ℤ)) hadd
  push_cast at hcast
  have hmodeq : (zkp.solve k c x : ℤ) ≡ (k : ℤ) - (c : ℤ) * (x : ℤ)
      [ZMOD (zkp.q : ℤ)] := by
    have h2 := Int.ModEq.sub_right ((c : ℤ) * (x : ℤ)) hcast
    simpa using h2
  refine ⟨?_, hmodeq, ?_, ?_⟩ <;>
    [skip; skip; skip] <;> clear hadd hcast hmodeq <;>
    unfold ZKP.solve <;> split
  · rename_i hle
    rw [modpow_one_right]
    exact le_of_lt (Nat.mod_lt _ hq)
  · exact Nat.sub_le _ _
  · rename_i hle
    rw [modpow_one_right]
    have hlt : (k - c * x) % zkp.q < zkp.q := Nat.mod_lt _ hq
    constructor
    · intro h
      omega
    · rintro ⟨hk, -⟩
      omega
  · rename_i hgt
    rw [modpow_one_right]
    have hlt : (c * x - k) % zkp.q < zkp.q := Nat.mod_lt _ hq
    constructor
    · intro h
      have hr0 : (c * x - k) % zkp.q = 0 := by omega
      exact ⟨by omega, Nat.dvd_of_mod_eq_zero hr0⟩
    · rintro ⟨-, hdvd⟩
      have hr0 : (c * x - k) % zkp.q = 0 := Nat.dvd_iff_mod_eq_zero.mp hdvd
      omega
  · rename_i hle
    rw [modpow_one_right]
    intro _
    exact Nat.mod_lt _ hq
  · rename_i hgt
    rw [modpow_one_right]
    intro hnot
    have hr0 : (c * x - k) % zkp.q ≠ 0 := by
      intro h0
      exact hnot ⟨by omega, Nat.dvd_of_mod_eq_zero h0⟩
    have hlt : (c * x - k) % zkp.q < zkp.q := Nat.mod_lt _ hq
    omega

theorem solve_range_characterization_witness :
    zkpToy.solve 7 4 6 ≤ zkpToy.q ∧
    ((zkpToy.solve 7 4 6 : ℤ) ≡ (7 : ℤ) - (4 : ℤ) * (6 : ℤ)
      [ZMOD (zkpToy.q : ℤ)]) ∧
    (zkpToy.solve 7 4 6 = zkpToy.q ↔ (7 < 4 * 6 ∧ zkpToy.q ∣ (4 * 6 - 7))) ∧
    (¬ (7 < 4 * 6 ∧ zkpToy.q ∣ (4 * 6 - 7)) → zkpToy.solve 7 4 6 < zkpToy.q) :=
  solve_range_characterization zkpToy 7 4 6 (by decide)

theorem honest_cond (p q a : Nat) (hp : 1 < p) (ha : a ^ q % p = 1)
    (k x c s : Nat) (hsk : (s + c * x) % q = k % q) :
    modpow a k p = modpow (modpow a s p * modpow (modpow a x p) c p) 1 p := by
  rw [verify_left_arg, modpow_eq]
  rw [pow_mod_cycle a q p k hp ha, pow_mod_cycle a q p (s + x * c) hp ha]
  rw [Nat.mul_comm x c, hsk]

/-- C2: completeness — for group parameters satisfying the protocol
invariants (`p` prime, `q` prime dividing `p - 1`, `alpha` and `beta` of
order `q` mod `p`, the order stated as `g^q ≡ 1` and `g ≢ 1` mod `p`,
which for prime `q` is exactly order `q`) and any `x, k, c` in `[0, q)`,
an honestly derived proof always verifies. -/
theorem completeness_honest_proof_verifies (zkp : ZKP)
    (hp : zkp.p.Prime) (hq : zkp.q.Prime) (hdvd : zkp.q ∣ zkp.p - 1)
    (ha : zkp.alpha ^ zkp.q % zkp.p = 1) (ha1 : zkp.alpha % zkp.p ≠ 1)
    (hb : zkp.beta ^ zkp.q % zkp.p = 1) (hb1 : zkp.beta % zkp.p ≠ 1)
    (x k c : Nat) (hx : x < zkp.q) (hk : k < zkp.q) (hc : c < zkp.q) :
    zkp.verify (ZKP.exponetiate zkp.alpha k zkp.p)
      (ZKP.exponetiate zkp.beta k zkp.p)
      (ZKP.exponetiate zkp.alpha x zkp.p)
      (ZKP.exponetiate zkp.beta x zkp.p)
      (zkp.solve k c x) c = true := by
  have hp1 : 1 < zkp.p := hp.one_lt
  have hq0 : 0 < zkp.q := hq.pos
  have hsolve : (zkp.solve k c x + c * x) % zkp.q = k % zkp.q :=
    solve_add_mod zkp k c x hq0
  unfold ZKP.verify
  simp only [ZKP.exponetiate]
  rw [Bool.and_eq_true, beq_iff_eq, beq_iff_eq]
  exact ⟨honest_cond zkp.p zkp.q zkp.alpha hp1 ha k x c _ hsolve,
    honest_cond zkp.p zkp.q zkp.beta hp1 hb k x c _ hsolve⟩

theorem completeness_honest_proof_verifies_witness :
    zkpToy.verify (ZKP.exponetiate 4 7 23) (ZKP.exponetiate 9 7 23)
      (ZKP.exponetiate 4 6 23) (ZKP.exponetiate 9 6 23)
      (zkpToy.solve 7 4 6) 4 = true :=
  completeness_honest_proof_verifies zkpToy
    (by show Nat.Prime 23; norm_num) (by show Nat.Prime 11; norm_num)
    (by decide) (by decide) (by decide) (by decide) (by decide)
    6 7 4 (by decide) (by decide) (by decide)

theorem pow_mod_exponent_modeq (p q a : Nat) (hp : p.Prime) (hq : q.Prime)
    (haq : a ^ q % p = 1) (ha1 : a % p ≠ 1) (m n : Nat)
    (h : a ^ m % p = a ^ n % p) : m ≡ n [MOD q] := by
  haveI hfp : Fact p.Prime := ⟨hp⟩
  haveI hfq : Fact q.Prime := ⟨hq⟩
  haveI hf1 : Fact (1 < p) := ⟨hp.one_lt⟩
  haveI : NeZero p := ⟨hp.ne_zero⟩
  have hAq : (a : ZMod p) ^ q = 1 := by
    have hcast := congrArg (fun t : Nat => (t : ZMod p)) haq
    simpa only [ZMod.natCast_mod, Nat.cast_pow, Nat.cast_one] using hcast
  have hA1 : (a : ZMod p) ≠ 1 := by
    intro h1
    apply ha1
    have hv := congrArg ZMod.val h1
    rwa [ZMod.val_natCast, ZMod.val_one] at hv
  have horder : orderOf (a : ZMod p) = q := orderOf_eq_prime hAq hA1
  have hA0 : (a : ZMod p) ≠ 0 := by
    intro h0
    rw [h0, zero_pow hq.ne_zero] at hAq
    exact one_ne_zero hAq.symm
  have hU : IsUnit (a : ZMod p) := isUnit_iff_ne_zero.mpr hA0
  have hmn : (a : ZMod p) ^ m = (a : ZMod p) ^ n := by
    have hcast := congrArg (fun t : Nat => (t : ZMod p)) h
    simpa only [ZMod.natCast_mod, Nat.cast_pow] using hcast
  have hum : hU.unit ^ m = hU.unit ^ n := by
    apply Units.ext
    rw [Units.val_pow_eq_pow_val, Units.val_pow_eq_pow_val, hU.unit_spec]
    exact hmn
  have hou : orderOf hU.unit = q := by
    rw [← orderOf_units, hU.unit_spec]
    exact horder
  have hmod := pow_eq_pow_iff_modEq.mp hum
  rwa [hou] at hmod

/-- C3: soundness — with honest `y1, y2, r1, r2` derived from the real
secret `x` but `s` computed from a fake secret `x_fake ≢ x (mod q)` and a
challenge `c ≢ 0 (mod q)`, `verify` returns false (group invariants as in
the completeness theorem). -/
theorem soundness_fake_secret_rejected (zkp : ZKP)
    (hp : zkp.p.Prime) (hq : zkp.q.Prime) (hdvd : zkp.q ∣ zkp.p - 1)
    (ha : zkp.alpha ^ zkp.q % zkp.p = 1) (ha1 : zkp.alpha % zkp.p ≠ 1)
    (hb : zkp.beta ^ zkp.q % zkp.p = 1) (hb1 : zkp.beta % zkp.p ≠ 1)
    (x xf k c : Nat) (hx : x < zkp.q) (hxf : xf < zkp.q) (hk : k < zkp.q)
    (hc : c < zkp.q) (hne : ¬ (xf ≡ x [MOD zkp.q]))
    (hc0 : ¬ (c ≡ 0 [MOD zkp.q])) :
    zkp.verify (ZKP.exponetiate zkp.alpha k zkp.p)
      (ZKP.exponetiate zkp.beta k zkp.p)
      (ZKP.exponetiate zkp.alpha x zkp.p)
      (ZKP.exponetiate zkp.beta x zkp.p)
      (zkp.solve k c xf) c = false := by
  have hq0 : 0 < zkp.q := hq.pos
  have hne1 : modpow zkp.alpha k zkp.p
      ≠ modpow (modpow zkp.alpha (zkp.solve k c xf) zkp.p *
          modpow (modpow zkp.alpha x zkp.p) c zkp.p) 1 zkp.p := by
    intro heq
    rw [verify_left_arg, modpow_eq] at heq
    have hmm : k ≡ zkp.solve k c xf + x * c [MOD zkp.q] :=
      pow_mod_exponent_modeq zkp.p zkp.q zkp.alpha hp hq ha ha1 k
        (zkp.solve k c xf + x * c) heq
    have hsk : zkp.solve k c xf + c * xf ≡ k [MOD zkp.q] :=
      solve_add_mod zkp k c xf hq0
    have htr : zkp.solve k c xf + c * xf ≡ zkp.solve k c xf + c * x
        [MOD zkp.q] := by
      have h1 := hsk.trans hmm
      rwa [Nat.mul_comm x c] at h1
    have hxx : c * xf ≡ c * x [MOD zkp.q] :=
      Nat.ModEq.add_left_cancel' (zkp.solve k c xf) htr
    haveI : Fact zkp.q.Prime := ⟨hq⟩
    haveI : NeZero zkp.q := ⟨hq.ne_zero⟩
    have hzq : ((c * xf : ℕ) : ZMod zkp.q) = ((c * x : ℕ) : ZMod zkp.q) :=
      (ZMod.natCast_eq_natCast_iff _ _ _).mpr hxx
    push_cast at hzq
    have hcz : (c : ZMod zkp.q) ≠ 0 := by
      intro h0
      rw [ZMod.natCast_zmod_eq_zero_iff_dvd] at h0
      exact hc0 (Nat.modEq_zero_iff_dvd.mpr h0)
    have hxfx : (xf : ZMod zkp.q) = (x : ZMod zkp.q) :=
      mul_left_cancel₀ hcz hzq
    exact hne ((ZMod.natCast_eq_natCast_iff _ _ _).mp hxfx)
  unfold ZKP.verify
  simp only [ZKP.exponetiate]
  have hbeq : (modpow zkp.alpha k zkp.p
      == modpow (modpow zkp.alpha (zkp.solve k c xf) zkp.p *
          modpow (modpow zkp.alpha x zkp.p) c zkp.p) 1 zkp.p) = false := by
    rw [beq_eq_false_iff_ne]
    exact hne1
  rw [hbeq, Bool.false_and]

theorem soundness_fake_secret_rejected_witness :
    zkpToy.verify (ZKP.exponetiate 4 7 23) (ZKP.exponetiate 9 7 23)
      (ZKP.exponetiate 4 6 23) (ZKP.exponetiate 9 6 23)
      (zkpToy.solve 7 4 7) 4 = false :=
  soundness_fake_secret_rejected zkpToy
    (by show Nat.Prime 23; norm_num) (by show Nat.Prime 11; norm_num)
    (by decide) (by decide) (by decide) (by decide) (by decide)
    6 7 7 4 (by decide) (by decide) (by decide) (by decide)
    (by decide) (by decide)
